import Mathlib

/-
Verification of the CSV file parser of chainer_chemistry
(chainer_chemistry/dataset/parsers/csv_file_parser.py).

The embedding models `CSVFileParser.parse` and `CSVFileParser.get_smiles`
for a molecular preprocessor.  The external collaborators (RDKit, the
preprocessor, pandas) are modelled by recording, per input row, what their
calls return on that row: whether `Chem.MolFromSmiles` returns None,
whether `prepare_smiles_and_mol` / `get_input_features` raise a
`MolFeatureExtractionError` or some other exception, and otherwise the
standardized smiles string, the string `Chem.MolToSmiles(mol)` returns,
and the extracted feature output (a single value or a tuple of values).
numpy's `asarray` is modelled on nested values: it yields a dense array
exactly when the collected values share a common rectangular shape, and
raises otherwise (the `ValueError` branch of the source).
-/

namespace CSVParse

/-- A nested numeric value, mirroring the per-row objects the preprocessor
returns and the label lists: an atom (a number) or a nested list. -/
inductive Val where
  | atom (n : Int)
  | arr (elems : List Val)

mutual

/-- Decidable equality of values (the derive handler does not support the
nested occurrence of `List Val`). -/
def Val.decEq : (a b : Val) → Decidable (a = b)
  | .atom m, .atom n =>
    if h : m = n then .isTrue (by rw [h]) else .isFalse (by simp [h])
  | .arr xs, .arr ys =>
    match Val.decEqList xs ys with
    | .isTrue h => .isTrue (by rw [h])
    | .isFalse h => .isFalse (by simp [h])
  | .atom _, .arr _ => .isFalse (by simp)
  | .arr _, .atom _ => .isFalse (by simp)

/-- Decidable equality of lists of values. -/
def Val.decEqList : (xs ys : List Val) → Decidable (xs = ys)
  | [], [] => .isTrue rfl
  | [], _ :: _ => .isFalse (by simp)
  | _ :: _, [] => .isFalse (by simp)
  | x :: xs, y :: ys =>
    match Val.decEq x y, Val.decEqList xs ys with
    | .isTrue h1, .isTrue h2 => .isTrue (by rw [h1, h2])
    | .isFalse h1, _ => .isFalse (by simp [h1])
    | .isTrue _, .isFalse h2 => .isFalse (by simp [h2])

end

instance : DecidableEq Val := Val.decEq

mutual

/-- The rectangular shape of a value, if it has one: `none` models data that
is ragged inside (numpy cannot form a dense array from it). -/
def Val.shape : Val → Option (List Nat)
  | .atom _ => some []
  | .arr vs =>
    match shapeList vs with
    | none => none
    | some [] => some [0]
    | some (s :: rest) =>
      if rest.all (· == s) then some (vs.length :: s) else none

/-- The shapes of a list of values, if every one has a rectangular shape. -/
def shapeList : List Val → Option (List (List Nat))
  | [] => some []
  | v :: vs =>
    match Val.shape v, shapeList vs with
    | some s, some ss => some (s :: ss)
    | _, _ => none

end

/-- The common rectangular element shape of the collected values of one
feature slot, if they have one: this is exactly when `numpy.asarray`
succeeds on the collected list in the source's final conversion step. -/
def commonShape (vs : List Val) : Option (List Nat) :=
  match shapeList vs with
  | none => none
  | some [] => some []
  | some (s :: rest) => if rest.all (· == s) then some s else none

/-- A numpy array as produced by the final conversion step: either a dense
array with a shape, or an object-typed array holding the original
heterogeneous per-row objects (the `ValueError` fallback of the source). -/
inductive NDArr where
  | dense (shape : List Nat) (elems : List Val)
  | obj (elems : List Val)
  deriving DecidableEq

/-- The leading dimension of an array. -/
def NDArr.outerLen : NDArr → Nat
  | .dense sh _ => sh.headD 0
  | .obj es => es.length

/-- Models `numpy.asarray(feature)` with the source's `except ValueError`
fallback: dense conversion when the collected values share a rectangular
shape, otherwise an object-typed array of the original elements. -/
def toFeatArray (vs : List Val) : NDArr :=
  match commonShape vs with
  | some s => .dense (vs.length :: s) vs
  | none => .obj vs

/-- The feature output of `pp.get_input_features(mol)` on one molecule:
a single value or a tuple of values (the source tests `isinstance(...,
tuple)`). -/
inductive FeatOut where
  | single (v : Val)
  | tup (vs : List Val)
  deriving DecidableEq

/-- What the external calls of the loop body do on one row:
`molNone` models `Chem.MolFromSmiles` returning None; `featErr` models a
`MolFeatureExtractionError` raised while preparing the molecule or
extracting features; `otherErr` models any other exception raised inside
the `try` block; `ok std molTo feat` models the successful path, recording
the standardized smiles, the string `Chem.MolToSmiles(mol)` returns for
the prepared molecule, and the extracted feature output. -/
inductive RowStep where
  | molNone
  | featErr
  | otherErr
  | ok (std : String) (molTo : String) (feat : FeatOut)
  deriving DecidableEq

/-- One row of the input table: the smiles column value, the values of the
label columns, and the recorded behaviour of the external calls on it. -/
structure Row where
  smiles : String
  labels : List Val
  step : RowStep
  deriving DecidableEq

/-- The parser's configuration, fixed at construction, plus the
`retain_smiles` argument of the parse call. -/
structure Config where
  hasLabels : Bool
  retain : Bool
  postprocessLabel : Option (List Val → List Val)
  postprocessFn : Option (List NDArr → List NDArr)

/-- The mutable state of one parse call: the two counters, the `self.smiles`
list (None when never initialized), the lazily created `features` list of
lists, and the number of `logger.warning` calls made by the loop body. -/
structure ParseState where
  fail_count : Nat
  success_count : Nat
  smiles : Option (List String)
  features : Option (List (List Val))
  warnings : Nat
  deriving DecidableEq

/-- The number of feature slots one feature output fills: the length of a
tuple output, 1 for a single output. -/
def fillLen : FeatOut → Nat
  | .single _ => 1
  | .tup vs => vs.length

/-- The values a feature output appends, slot by slot: the tuple elements,
or the single value alone (which goes to slot 0). -/
def featVals : FeatOut → List Val
  | .single v => [v]
  | .tup vs => vs

/-- The extra trailing slot allocated for labels when label columns are
configured (`if self.labels is not None: num_features += 1`). -/
def labelBonus (cfg : Config) : Nat := if cfg.hasLabels then 1 else 0

/-- The raw label values of a row: `[row[i] for i in labels_index]`, which
is the empty list when no label columns are configured. -/
def rawLabels (cfg : Config) (r : Row) : List Val :=
  if cfg.hasLabels then r.labels else []

/-- The label values after the optional `postprocess_label` function. -/
def postLabels (cfg : Config) (r : Row) : List Val :=
  match cfg.postprocessLabel with
  | some f => f (rawLabels cfg r)
  | none => rawLabels cfg r

/-- The element appended to the label slot for one successful row: the
(post-processed) label list as one object. -/
def labelEntry (cfg : Config) (r : Row) : Val :=
  Val.arr (postLabels cfg r)

/-- Models `for i in range(len(input_features)): features[i].append(...)`:
appends the j-th tuple element to the j-th slot, for every index both
sides have. -/
def appendFeat : List (List Val) → List Val → List (List Val)
  | [], _ => []
  | slot :: fs, [] => slot :: fs
  | slot :: fs, v :: vs => (slot ++ [v]) :: appendFeat fs vs

/-- Models `features[len(features) - 1].append(v)` on a nonempty list. -/
def appendToLast (v : Val) : List (List Val) → List (List Val)
  | [] => []
  | [slot] => [slot ++ [v]]
  | slot :: fs => slot :: appendToLast v fs

/-- Whether the loop body reaches its success path on a row: the smiles
parses, feature extraction succeeds, and, when identifiers are retained,
the consistency assert `standardized_smiles == Chem.MolToSmiles(mol)`
passes (its AssertionError would otherwise be caught by the generic
`except Exception` handler). -/
def isSuccess (cfg : Config) (r : Row) : Bool :=
  match r.step with
  | .ok std molTo _ => !(cfg.retain && (std != molTo))
  | _ => false

/-- The rows the parse loop counts as successes, in row order. -/
def successRecords (cfg : Config) (rows : List Row) : List Row :=
  rows.filter (isSuccess cfg)

/-- The feature output recorded for a row (meaningful on `ok` rows only). -/
def featOf (r : Row) : FeatOut :=
  match r.step with
  | .ok _ _ feat => feat
  | _ => .single (.atom 0)

/-- The standardized smiles recorded for a row (meaningful on `ok` rows). -/
def stdOf (r : Row) : String :=
  match r.step with
  | .ok std _ _ => std
  | _ => ""

/-- The canonical identifier strings of the successfully processed rows,
in row order: what `self.smiles` holds after a retaining parse call. -/
def canonicalIds (cfg : Config) (rows : List Row) : List String :=
  (successRecords cfg rows).map stdOf

/-- The tail of the loop body after the feature-slot appends succeeded:
the label append (`features[len(features) - 1].append(labels)`, an
IndexError on an empty list) and `success_count += 1`. -/
def finishRow (cfg : Config) (st1 : ParseState) (r : Row)
    (fs1 : List (List Val)) : Except ParseState ParseState :=
  if cfg.hasLabels then
    if fs1.isEmpty then .error { st1 with features := some fs1 }
    else
      .ok { st1 with
              features := some (appendToLast (labelEntry cfg r) fs1),
              success_count := st1.success_count + 1 }
  else
    .ok { st1 with features := some fs1,
                   success_count := st1.success_count + 1 }

/-- One iteration of the row loop of `CSVFileParser.parse`.  An `.error`
value models an exception escaping the loop body outside the `try` block
(the IndexError of the slot appends), carrying the state at that point. -/
def processRow (cfg : Config) (st : ParseState) (r : Row) :
    Except ParseState ParseState :=
  match r.step with
  | .molNone =>
    -- `if mol is None: fail_count += 1; continue`
    .ok { st with fail_count := st.fail_count + 1 }
  | .featErr =>
    -- `except MolFeatureExtractionError`: expected, skip, no log noise
    .ok { st with fail_count := st.fail_count + 1 }
  | .otherErr =>
    -- `except Exception`: warning logged, skip
    .ok { st with fail_count := st.fail_count + 1,
                  warnings := st.warnings + 1 }
  | .ok std molTo feat =>
    if cfg.retain && (std != molTo) then
      -- the AssertionError of the consistency check is an Exception, so it
      -- is caught by the generic handler: warning logged, row skipped
      .ok { st with fail_count := st.fail_count + 1,
                    warnings := st.warnings + 1 }
    else
      let st1 : ParseState :=
        if cfg.retain then
          { st with smiles := st.smiles.map (fun l => l ++ [std]) }
        else st
      let fs0 : List (List Val) :=
        match st.features with
        | some fs => fs
        | none => List.replicate (fillLen feat + labelBonus cfg) []
      match feat with
      | .single v =>
        -- `features[0].append(input_features)`
        match fs0 with
        | [] => .error { st1 with features := some fs0 }
        | slot :: rest => finishRow cfg st1 r ((slot ++ [v]) :: rest)
      | .tup vs =>
        if vs.length ≤ fs0.length then
          finishRow cfg st1 r (appendFeat fs0 vs)
        else
          -- IndexError: `features[i]` with i = len(features); the appends
          -- with smaller i already happened
          .error { st1 with features := some (appendFeat fs0 vs) }

/-- The row loop of `parse`: errors escaping a loop body abort the loop. -/
def parseLoop (cfg : Config) : ParseState → List Row → Except ParseState ParseState
  | st, [] => .ok st
  | st, r :: rs =>
    match processRow cfg st r with
    | .ok st1 => parseLoop cfg st1 rs
    | .error e => .error e

/-- The parser object's cross-call state: `self.smiles`, set to None at
construction and touched again only by parse calls with `retain_smiles`. -/
structure Parser where
  smiles : Option (List String)
  deriving DecidableEq

/-- A freshly constructed parser (`self.smiles = None`). -/
def Parser.init : Parser := ⟨none⟩

/-- The state at the top of a parse call: zeroed counters, `self.smiles`
re-initialized to the empty list when `retain_smiles` is set (and left
untouched otherwise), no features list yet. -/
def initState (cfg : Config) (p : Parser) : ParseState :=
  { fail_count := 0, success_count := 0,
    smiles := if cfg.retain then some [] else p.smiles,
    features := none, warnings := 0 }

/-- How one parse call ends: `ok` with the finalized arrays, or one of the
two uncaught exceptions: the IndexError of the slot appends, or the
TypeError of `for feature in features` when `features` is still None after
the loop (no row succeeded). -/
inductive ParseOutcome where
  | ok (arrays : List NDArr) (st : ParseState)
  | indexError (st : ParseState)
  | noneTypeError (st : ParseState)
  deriving DecidableEq

/-- `CSVFileParser.parse` for a molecular preprocessor: run the row loop,
then convert every slot with `toFeatArray`, apply the optional
`postprocess_fn` and return the arrays; the second component is the parser
object state after the call (`self.smiles` keeps its appends even when an
exception escapes, since the list is mutated in place). -/
def parse (cfg : Config) (p : Parser) (rows : List Row) :
    ParseOutcome × Parser :=
  match parseLoop cfg (initState cfg p) rows with
  | .error e => (.indexError e, ⟨e.smiles⟩)
  | .ok st =>
    match st.features with
    | none => (.noneTypeError st, ⟨st.smiles⟩)
    | some fs =>
      let arrays0 := fs.map toFeatArray
      let arrays :=
        match cfg.postprocessFn with
        | some f => f arrays0
        | none => arrays0
      (.ok arrays st, ⟨st.smiles⟩)

/-- `CSVFileParser.get_smiles`: the retained list when `self.smiles` is not
None, otherwise None; the Bool records whether the warning was logged. -/
def get_smiles (p : Parser) : Option (List String) × Bool :=
  match p.smiles with
  | none => (none, true)
  | some l => (some l, false)

/-- A sequence of parse calls against one parser object, threading
`self.smiles` through. -/
def runCalls : Parser → List (Config × List Row) → Parser
  | p, [] => p
  | p, (cfg, rows) :: rest => runCalls (parse cfg p rows).2 rest

/-- The `self.smiles` list an aborted or completed loop leaves behind. -/
def loopSmiles : Except ParseState ParseState → Option (List String)
  | .ok st => st.smiles
  | .error e => e.smiles

/-- The invariant of the feature accumulators while all successes fill `K`
slots: the features list is `K` front slots, each holding one value per
success so far, followed by the label slot holding the label list of every
success so far (when labels are configured). -/
def SlotInv (cfg : Config) (K : Nat) (s : List Row)
    (fs : List (List Val)) : Prop :=
  ∃ front, fs = front ++ (if cfg.hasLabels then [s.map (labelEntry cfg)] else [])
    ∧ front.length = K ∧ ∀ slot ∈ front, slot.length = s.length

/-! Concrete fixtures used to instantiate the theorems: configurations and
rows as a small input table would produce them. -/

/-- No labels, no retention, no post-processing functions. -/
def cfgPlain : Config := ⟨false, false, none, none⟩

/-- `retain_smiles=True`, no labels. -/
def cfgRetain : Config := ⟨false, true, none, none⟩

/-- One label column configured, no retention. -/
def cfgLabels : Config := ⟨true, false, none, none⟩

/-- A row whose smiles does not parse (`Chem.MolFromSmiles` returns None). -/
def rowBad : Row := ⟨"XXX", [], .molNone⟩

/-- A row raising a `MolFeatureExtractionError`. -/
def rowFeatErr : Row := ⟨"CCO", [], .featErr⟩

/-- A successfully processed row: the canonical smiles "CCO" differs from
the input "OCC" and agrees with the re-serialized molecule. -/
def rowGood : Row := ⟨"OCC", [], .ok "CCO" "CCO" (.single (.atom 7))⟩

/-- A row on which the canonicalization consistency assert fails: the
standardized smiles and the re-serialized one disagree. -/
def rowAssertBad : Row := ⟨"OCC", [], .ok "CCO" "XCC" (.single (.atom 1))⟩

/-- A labelled row whose feature output is a 2-tuple. -/
def rowL1 : Row := ⟨"CCO", [.atom 1], .ok "CCO" "CCO" (.tup [.atom 1, .atom 2])⟩

/-- Another labelled row with a 2-tuple feature output. -/
def rowL2 : Row :=
  ⟨"c1ccccc1", [.atom 0], .ok "c1ccccc1" "c1ccccc1" (.tup [.atom 3, .atom 4])⟩

/-! Basic lemmas about the list helpers. -/

theorem appendFeat_nil (fs : List (List Val)) : appendFeat fs [] = fs := by
  cases fs <;> simp [appendFeat]

theorem appendFeat_length (fs : List (List Val)) (vs : List Val) :
    (appendFeat fs vs).length = fs.length := by
  induction fs generalizing vs with
  | nil => simp [appendFeat]
  | cons slot fs ih =>
    cases vs with
    | nil => simp [appendFeat]
    | cons v vs => simp [appendFeat, ih]

theorem appendFeat_append (fs1 fs2 : List (List Val)) (vs : List Val)
    (h : vs.length ≤ fs1.length) :
    appendFeat (fs1 ++ fs2) vs = appendFeat fs1 vs ++ fs2 := by
  induction fs1 generalizing vs with
  | nil =>
    have : vs = [] := List.length_eq_zero.mp (Nat.le_zero.mp h)
    subst this
    simp [appendFeat, appendFeat_nil]
  | cons slot fs1 ih =>
    cases vs with
    | nil => simp [appendFeat_nil]
    | cons v vs =>
      simp only [List.cons_append, appendFeat, List.append_eq]
      rw [ih]
      simpa using h

theorem appendFeat_full_lengths (fs : List (List Val)) (vs : List Val) (n : Nat)
    (hlen : vs.length = fs.length) (h : ∀ slot ∈ fs, slot.length = n) :
    ∀ slot2 ∈ appendFeat fs vs, slot2.length = n + 1 := by
  induction fs generalizing vs with
  | nil => simp [appendFeat]
  | cons slot fs ih =>
    cases vs with
    | nil => simp at hlen
    | cons v vs =>
      intro slot2 hmem
      simp only [appendFeat, List.mem_cons] at hmem
      rcases hmem with h2 | h2
      · subst h2
        simp [h slot (by simp)]
      · exact ih vs (by simpa using hlen)
          (fun s hs => h s (List.mem_cons_of_mem _ hs)) slot2 h2

theorem appendToLast_concat (as : List (List Val)) (b : List Val) (v : Val) :
    appendToLast v (as ++ [b]) = as ++ [b ++ [v]] := by
  induction as with
  | nil => simp [appendToLast]
  | cons a as ih =>
    cases as with
    | nil => simp [appendToLast]
    | cons a2 as2 => simpa [appendToLast] using ih

theorem appendToLast_length (v : Val) (fs : List (List Val)) :
    (appendToLast v fs).length = fs.length := by
  induction fs with
  | nil => simp [appendToLast]
  | cons a as ih =>
    cases as with
    | nil => simp [appendToLast]
    | cons a2 as2 => simpa [appendToLast] using ih

theorem toFeatArray_outerLen (vs : List Val) :
    (toFeatArray vs).outerLen = vs.length := by
  unfold toFeatArray
  cases h : commonShape vs <;> simp [NDArr.outerLen]

/-! Characterization of one loop iteration. -/

theorem processRow_fail_spec (cfg : Config) (st : ParseState) (r : Row)
    (h : isSuccess cfg r = false) :
    ∃ w, processRow cfg st r =
      .ok { st with fail_count := st.fail_count + 1, warnings := w } := by
  cases hr : r.step with
  | molNone => exact ⟨st.warnings, by simp [processRow, hr]⟩
  | featErr => exact ⟨st.warnings, by simp [processRow, hr]⟩
  | otherErr => exact ⟨st.warnings + 1, by simp [processRow, hr]⟩
  | ok std molTo feat =>
    have hc : (cfg.retain && (std != molTo)) = true := by
      simp only [isSuccess, hr, Bool.not_eq_false'] at h
      simpa using h
    exact ⟨st.warnings + 1, by simp [processRow, hr, hc]⟩

theorem featVals_length (feat : FeatOut) : (featVals feat).length = fillLen feat := by
  cases feat <;> simp [featVals, fillLen]

theorem processRow_first_success (cfg : Config) (st : ParseState) (r : Row)
    (std molTo : String) (feat : FeatOut)
    (hr : r.step = .ok std molTo feat)
    (hc : (cfg.retain && (std != molTo)) = false)
    (hfeat : st.features = none) :
    processRow cfg st r = .ok { st with
      success_count := st.success_count + 1,
      smiles := if cfg.retain then st.smiles.map (fun l => l ++ [std])
                else st.smiles,
      features := some
        (appendFeat (List.replicate (fillLen feat) []) (featVals feat)
          ++ (if cfg.hasLabels then [[labelEntry cfg r]] else [])) } := by
  have hstd : cfg.retain = true → std = molTo := by
    intro h1
    by_contra h2
    simp [h1, h2] at hc
  cases hret : cfg.retain with
  | true =>
    have hs2 := hstd hret
    subst hs2
    cases feat with
    | single v =>
      cases hL : cfg.hasLabels <;>
        simp [processRow, finishRow, hr, hfeat, hL, hret, labelBonus,
          fillLen, featVals, appendFeat, appendToLast, List.replicate_succ]
    | tup vs =>
      cases hL : cfg.hasLabels with
      | false =>
        simp [processRow, finishRow, hr, hfeat, hL, hret, labelBonus,
          fillLen, featVals]
      | true =>
        have happ : appendFeat (List.replicate vs.length [] ++ [[]]) vs
            = appendFeat (List.replicate vs.length []) vs ++ [[]] :=
          appendFeat_append _ _ _ (by simp)
        simp [processRow, finishRow, hr, hfeat, hL, hret, labelBonus,
          fillLen, featVals, List.replicate_succ', happ, appendToLast_concat]
  | false =>
    cases feat with
    | single v =>
      cases hL : cfg.hasLabels <;>
        simp [processRow, finishRow, hr, hfeat, hL, hret, labelBonus,
          fillLen, featVals, appendFeat, appendToLast, List.replicate_succ]
    | tup vs =>
      cases hL : cfg.hasLabels with
      | false =>
        simp [processRow, finishRow, hr, hfeat, hL, hret, labelBonus,
          fillLen, featVals]
      | true =>
        have happ : appendFeat (List.replicate vs.length [] ++ [[]]) vs
            = appendFeat (List.replicate vs.length []) vs ++ [[]] :=
          appendFeat_append _ _ _ (by simp)
        simp [processRow, finishRow, hr, hfeat, hL, hret, labelBonus,
          fillLen, featVals, List.replicate_succ', happ, appendToLast_concat]

theorem processRow_next_success (cfg : Config) (st : ParseState) (r : Row)
    (std molTo : String) (feat : FeatOut) (fs : List (List Val))
    (hr : r.step = .ok std molTo feat)
    (hc : (cfg.retain && (std != molTo)) = false)
    (hfeat : st.features = some fs)
    (hlen : fillLen feat ≤ fs.length)
    (hnil : cfg.hasLabels = true → fs ≠ []) :
    processRow cfg st r = .ok { st with
      success_count := st.success_count + 1,
      smiles := if cfg.retain then st.smiles.map (fun l => l ++ [std])
                else st.smiles,
      features := some (if cfg.hasLabels then
          appendToLast (labelEntry cfg r) (appendFeat fs (featVals feat))
        else appendFeat fs (featVals feat)) } := by
  have hstd : cfg.retain = true → std = molTo := by
    intro h1
    by_contra h2
    simp [h1, h2] at hc
  cases hret : cfg.retain with
  | true =>
    have hs2 := hstd hret
    subst hs2
    cases feat with
    | single v =>
      rcases fs with _ | ⟨slot, rest⟩
      · simp [fillLen] at hlen
      · cases hL : cfg.hasLabels <;>
          simp [processRow, finishRow, hr, hfeat, hL, hret,
            featVals, appendFeat, appendFeat_nil]
    | tup vs =>
      have hle : vs.length ≤ fs.length := by simpa [fillLen] using hlen
      cases hL : cfg.hasLabels with
      | false =>
        simp [processRow, finishRow, hr, hfeat, hL, hret, featVals, hle]
      | true =>
        have hne : appendFeat fs vs ≠ [] := by
          intro h4
          have h5 := appendFeat_length fs vs
          rw [h4] at h5
          exact (hnil hL) (List.length_eq_zero.mp h5.symm)
        have hemp : (appendFeat fs vs).isEmpty = false := by
          rcases h6 : appendFeat fs vs with _ | _
          · exact absurd h6 hne
          · rfl
        simp [processRow, finishRow, hr, hfeat, hL, hret, featVals, hle, hemp]
  | false =>
    cases feat with
    | single v =>
      rcases fs with _ | ⟨slot, rest⟩
      · simp [fillLen] at hlen
      · cases hL : cfg.hasLabels <;>
          simp [processRow, finishRow, hr, hfeat, hL, hret,
            featVals, appendFeat, appendFeat_nil]
    | tup vs =>
      have hle : vs.length ≤ fs.length := by simpa [fillLen] using hlen
      cases hL : cfg.hasLabels with
      | false =>
        simp [processRow, finishRow, hr, hfeat, hL, hret, featVals, hle]
      | true =>
        have hne : appendFeat fs vs ≠ [] := by
          intro h4
          have h5 := appendFeat_length fs vs
          rw [h4] at h5
          exact (hnil hL) (List.length_eq_zero.mp h5.symm)
        have hemp : (appendFeat fs vs).isEmpty = false := by
          rcases h6 : appendFeat fs vs with _ | _
          · exact absurd h6 hne
          · rfl
        simp [processRow, finishRow, hr, hfeat, hL, hret, featVals, hle, hemp]

theorem processRow_overflow (cfg : Config) (st : ParseState) (r : Row)
    (std molTo : String) (feat : FeatOut) (fs : List (List Val))
    (hr : r.step = .ok std molTo feat)
    (hc : (cfg.retain && (std != molTo)) = false)
    (hfeat : st.features = some fs)
    (hover : fs.length < fillLen feat ∨ (cfg.hasLabels = true ∧ fs = [])) :
    processRow cfg st r = .error { st with
      smiles := if cfg.retain then st.smiles.map (fun l => l ++ [std])
                else st.smiles,
      features := some (appendFeat fs (featVals feat)) } := by
  have hstd : cfg.retain = true → std = molTo := by
    intro h1
    by_contra h2
    simp [h1, h2] at hc
  have hcore : ∀ hret : cfg.retain = (cfg.retain : Bool), True := fun _ => trivial
  clear hcore
  cases hret : cfg.retain with
  | true =>
    have hs2 := hstd hret
    subst hs2
    cases feat with
    | single v =>
      rcases fs with _ | ⟨slot, rest⟩
      · simp [processRow, hr, hfeat, hret, featVals, appendFeat]
      · rcases hover with h4 | ⟨_, h4⟩
        · simp [fillLen] at h4
        · exact absurd h4 (by simp)
    | tup vs =>
      rcases hover with h4 | ⟨hL, h4⟩
      · have hlt : ¬(vs.length ≤ fs.length) := by
          simp only [fillLen] at h4
          omega
        simp [processRow, hr, hfeat, hret, featVals, hlt]
      · subst h4
        rcases vs with _ | ⟨v, vs2⟩
        · simp [processRow, finishRow, hr, hfeat, hret, hL, featVals,
            appendFeat, List.isEmpty]
        · simp [processRow, hr, hfeat, hret, featVals, appendFeat]
  | false =>
    cases feat with
    | single v =>
      rcases fs with _ | ⟨slot, rest⟩
      · simp [processRow, hr, hfeat, hret, featVals, appendFeat]
      · rcases hover with h4 | ⟨_, h4⟩
        · simp [fillLen] at h4
        · exact absurd h4 (by simp)
    | tup vs =>
      rcases hover with h4 | ⟨hL, h4⟩
      · have hlt : ¬(vs.length ≤ fs.length) := by
          simp only [fillLen] at h4
          omega
        simp [processRow, hr, hfeat, hret, featVals, hlt]
      · subst h4
        rcases vs with _ | ⟨v, vs2⟩
        · simp [processRow, finishRow, hr, hfeat, hret, hL, featVals,
            appendFeat, List.isEmpty]
        · simp [processRow, hr, hfeat, hret, featVals, appendFeat]

theorem isSuccess_ok (cfg : Config) (r : Row) (h : isSuccess cfg r = true) :
    ∃ std molTo feat, r.step = .ok std molTo feat ∧
      (cfg.retain && (std != molTo)) = false := by
  cases hr : r.step with
  | ok std molTo feat =>
    refine ⟨std, molTo, feat, rfl, ?_⟩
    simp only [isSuccess, hr, Bool.not_eq_true'] at h
    exact h
  | _ => simp [isSuccess, hr] at h

theorem processRow_ok_spec (cfg : Config) (st : ParseState) (r : Row)
    (st' : ParseState) (hp : processRow cfg st r = .ok st') :
    (isSuccess cfg r = false ∧ st'.fail_count = st.fail_count + 1 ∧
       st'.success_count = st.success_count ∧ st'.smiles = st.smiles ∧
       st'.features = st.features) ∨
    (isSuccess cfg r = true ∧ st'.fail_count = st.fail_count ∧
       st'.success_count = st.success_count + 1 ∧
       st'.smiles = (if cfg.retain then st.smiles.map (fun l => l ++ [stdOf r])
                     else st.smiles) ∧
       st'.warnings = st.warnings) := by
  by_cases hs : isSuccess cfg r = true
  · right
    obtain ⟨std, molTo, feat, hr, hc⟩ := isSuccess_ok cfg r hs
    have hstd : stdOf r = std := by simp [stdOf, hr]
    cases hf : st.features with
    | none =>
      rw [processRow_first_success cfg st r std molTo feat hr hc hf] at hp
      obtain hp2 := (Except.ok.injEq _ _).mp hp
      subst hp2
      simp [hs, hstd]
    | some fs =>
      by_cases hgood : fillLen feat ≤ fs.length ∧ (cfg.hasLabels = true → fs ≠ [])
      · rw [processRow_next_success cfg st r std molTo feat fs hr hc hf
          hgood.1 hgood.2] at hp
        obtain hp2 := (Except.ok.injEq _ _).mp hp
        subst hp2
        simp [hs, hstd]
      · have hover : fs.length < fillLen feat ∨ (cfg.hasLabels = true ∧ fs = []) := by
          by_cases h1 : fillLen feat ≤ fs.length
          · right
            rcases Classical.not_and_iff_or_not_not.mp hgood with h2 | h2
            · exact absurd h1 h2
            · rcases Classical.not_imp.mp h2 with ⟨h3, h4⟩
              exact ⟨h3, Classical.not_not.mp h4⟩
          · exact Or.inl (Nat.lt_of_not_le h1)
        rw [processRow_overflow cfg st r std molTo feat fs hr hc hf hover] at hp
        cases hp
  · left
    obtain ⟨w, hw⟩ := processRow_fail_spec cfg st r (Bool.not_eq_true _ ▸ hs)
    rw [hw] at hp
    obtain hp2 := (Except.ok.injEq _ _).mp hp
    subst hp2
    simp [Bool.not_eq_true _ ▸ hs]

theorem processRow_error_spec (cfg : Config) (st : ParseState) (r : Row)
    (e : ParseState) (hp : processRow cfg st r = .error e) :
    e.fail_count = st.fail_count ∧ e.success_count = st.success_count ∧
    e.smiles = (if cfg.retain then st.smiles.map (fun l => l ++ [stdOf r])
                else st.smiles) ∧
    e.warnings = st.warnings := by
  by_cases hs : isSuccess cfg r = true
  · obtain ⟨std, molTo, feat, hr, hc⟩ := isSuccess_ok cfg r hs
    have hstd : stdOf r = std := by simp [stdOf, hr]
    cases hf : st.features with
    | none =>
      rw [processRow_first_success cfg st r std molTo feat hr hc hf] at hp
      cases hp
    | some fs =>
      by_cases hgood : fillLen feat ≤ fs.length ∧ (cfg.hasLabels = true → fs ≠ [])
      · rw [processRow_next_success cfg st r std molTo feat fs hr hc hf
          hgood.1 hgood.2] at hp
        cases hp
      · have hover : fs.length < fillLen feat ∨ (cfg.hasLabels = true ∧ fs = []) := by
          by_cases h1 : fillLen feat ≤ fs.length
          · right
            rcases Classical.not_and_iff_or_not_not.mp hgood with h2 | h2
            · exact absurd h1 h2
            · rcases Classical.not_imp.mp h2 with ⟨h3, h4⟩
              exact ⟨h3, Classical.not_not.mp h4⟩
          · exact Or.inl (Nat.lt_of_not_le h1)
        rw [processRow_overflow cfg st r std molTo feat fs hr hc hf hover] at hp
        obtain hp2 := (Except.error.injEq _ _).mp hp
        subst hp2
        simp [hstd]
  · obtain ⟨w, hw⟩ := processRow_fail_spec cfg st r (Bool.not_eq_true _ ▸ hs)
    rw [hw] at hp
    cases hp

/-! Lemmas about the row loop. -/

theorem successRecords_cons (cfg : Config) (r : Row) (rows : List Row) :
    successRecords cfg (r :: rows) =
      if isSuccess cfg r then r :: successRecords cfg rows
      else successRecords cfg rows := by
  simp [successRecords, List.filter_cons]

theorem canonicalIds_cons (cfg : Config) (r : Row) (rows : List Row) :
    canonicalIds cfg (r :: rows) =
      if isSuccess cfg r then stdOf r :: canonicalIds cfg rows
      else canonicalIds cfg rows := by
  simp only [canonicalIds, successRecords_cons]
  split <;> simp

theorem parseLoop_counts (cfg : Config) : ∀ (rows : List Row) (st st' : ParseState),
    parseLoop cfg st rows = .ok st' →
    st'.success_count = st.success_count + (successRecords cfg rows).length ∧
    st'.fail_count + st'.success_count
      = st.fail_count + st.success_count + rows.length := by
  intro rows
  induction rows with
  | nil =>
    intro st st' h
    obtain h2 := (Except.ok.injEq _ _).mp h
    subst h2
    simp [successRecords]
  | cons r rows ih =>
    intro st st' h
    simp only [parseLoop] at h
    cases hp : processRow cfg st r with
    | error e => rw [hp] at h; cases h
    | ok st1 =>
      rw [hp] at h
      obtain ⟨ih1, ih2⟩ := ih st1 st' h
      rcases processRow_ok_spec cfg st r st1 hp with
        ⟨hs, h1, h2, _, _⟩ | ⟨hs, h1, h2, _, _⟩ <;>
        rw [successRecords_cons] at * <;> simp [hs] at ih1 ⊢ <;> omega

theorem parseLoop_canonicalIds (cfg : Config) (hret : cfg.retain = true) :
    ∀ (rows : List Row) (st st' : ParseState),
    parseLoop cfg st rows = .ok st' →
    st'.smiles = st.smiles.map (fun l => l ++ canonicalIds cfg rows) := by
  intro rows
  induction rows with
  | nil =>
    intro st st' h
    obtain h2 := (Except.ok.injEq _ _).mp h
    subst h2
    simp [canonicalIds, successRecords]
  | cons r rows ih =>
    intro st st' h
    simp only [parseLoop] at h
    cases hp : processRow cfg st r with
    | error e => rw [hp] at h; cases h
    | ok st1 =>
      rw [hp] at h
      have ih1 := ih st1 st' h
      rcases processRow_ok_spec cfg st r st1 hp with
        ⟨hs, _, _, hsm, _⟩ | ⟨hs, _, _, hsm, _⟩
      · rw [canonicalIds_cons]
        simp [hs, ih1, hsm]
      · rw [canonicalIds_cons]
        rw [hret] at hsm
        simp only [if_true] at hsm
        simp only [hs, ih1, hsm, Option.map_map, if_true]
        congr 1
        funext l
        simp

theorem parseLoop_smiles_shape (cfg : Config) :
    ∀ (rows : List Row) (st : ParseState),
    ∃ ids : List String,
      loopSmiles (parseLoop cfg st rows) =
        if cfg.retain then st.smiles.map (fun l => l ++ ids) else st.smiles := by
  intro rows
  induction rows with
  | nil =>
    intro st
    refine ⟨[], ?_⟩
    cases h : cfg.retain <;> simp [parseLoop, loopSmiles, h]
  | cons r rows ih =>
    intro st
    cases hp : processRow cfg st r with
    | error e =>
      refine ⟨[stdOf r], ?_⟩
      have he := (processRow_error_spec cfg st r e hp).2.2.1
      simp [parseLoop, hp, loopSmiles, he]
    | ok st1 =>
      obtain ⟨ids1, hids⟩ := ih st1
      rcases processRow_ok_spec cfg st r st1 hp with
        ⟨_, _, _, hsm, _⟩ | ⟨_, _, _, hsm, _⟩
      · refine ⟨ids1, ?_⟩
        simp only [parseLoop, hp]
        rw [hids, hsm]
      · cases hret : cfg.retain with
        | false =>
          refine ⟨ids1, ?_⟩
          rw [hret] at hsm
          simp only [Bool.false_eq_true, if_false] at hsm
          simp only [parseLoop, hp]
          rw [hids, hsm, hret]
        | true =>
          refine ⟨stdOf r :: ids1, ?_⟩
          rw [hret] at hsm
          simp only [if_true] at hsm
          simp only [parseLoop, hp]
          rw [hids, hsm, hret]
          simp only [if_true, Option.map_map]
          congr 1
          funext l
          simp

theorem parseLoop_append (cfg : Config) :
    ∀ (l1 l2 : List Row) (st : ParseState),
    parseLoop cfg st (l1 ++ l2) =
      match parseLoop cfg st l1 with
      | .ok st1 => parseLoop cfg st1 l2
      | .error e => .error e := by
  intro l1
  induction l1 with
  | nil =>
    intro l2 st
    simp [parseLoop]
  | cons r l1 ih =>
    intro l2 st
    simp only [List.cons_append, parseLoop]
    cases hp : processRow cfg st r with
    | error e => simp
    | ok st1 => simp [ih]

theorem parse_ok_inv (cfg : Config) (p : Parser) (rows : List Row)
    (arrays : List NDArr) (st : ParseState) (p2 : Parser)
    (h : parse cfg p rows = (.ok arrays st, p2)) :
    parseLoop cfg (initState cfg p) rows = .ok st ∧
    ∃ fs, st.features = some fs ∧
      arrays = (match cfg.postprocessFn with
        | some f => f (fs.map toFeatArray)
        | none => fs.map toFeatArray) ∧
      p2 = ⟨st.smiles⟩ := by
  simp only [parse] at h
  cases hl : parseLoop cfg (initState cfg p) rows with
  | error e =>
    rw [hl] at h
    simp [Prod.ext_iff] at h
  | ok stx =>
    rw [hl] at h
    have h2 : (match stx.features with
        | none => ((ParseOutcome.noneTypeError stx,
            (⟨stx.smiles⟩ : Parser)) : ParseOutcome × Parser)
        | some fs =>
          (ParseOutcome.ok
            (match cfg.postprocessFn with
              | some f => f (fs.map toFeatArray)
              | none => fs.map toFeatArray) stx,
            (⟨stx.smiles⟩ : Parser))) = (ParseOutcome.ok arrays st, p2) := h
    cases hf : stx.features with
    | none =>
      rw [hf] at h2
      simp [Prod.ext_iff] at h2
    | some fs =>
      rw [hf] at h2
      simp only [Prod.mk.injEq, ParseOutcome.ok.injEq] at h2
      obtain ⟨⟨ha, hst⟩, hp2⟩ := h2
      subst hst
      exact ⟨rfl, fs, hf, ha.symm, hp2.symm⟩

theorem parse_of_loop_error (cfg : Config) (p : Parser) (rows : List Row)
    (e : ParseState)
    (hl : parseLoop cfg (initState cfg p) rows = .error e) :
    parse cfg p rows = (.indexError e, ⟨e.smiles⟩) := by
  simp [parse, hl]

theorem processRow_slotInv (cfg : Config) (K : Nat) (s : List Row)
    (st : ParseState) (r : Row) (st1 : ParseState)
    (hs : isSuccess cfg r = true) (hK : fillLen (featOf r) = K)
    (hp : processRow cfg st r = .ok st1)
    (hpre : (st.features = none ∧ s = []) ∨
            (∃ fs, st.features = some fs ∧ SlotInv cfg K s fs)) :
    ∃ fs1, st1.features = some fs1 ∧ SlotInv cfg K (s ++ [r]) fs1 := by
  obtain ⟨std, molTo, feat, hr, hc⟩ := isSuccess_ok cfg r hs
  have hfeat : featOf r = feat := by simp [featOf, hr]
  rw [hfeat] at hK
  have hvals : (featVals feat).length = K := by rw [featVals_length, hK]
  rcases hpre with ⟨hf, hs0⟩ | ⟨fs, hf, front, hfs, hflen, hslots⟩
  · subst hs0
    rw [processRow_first_success cfg st r std molTo feat hr hc hf] at hp
    obtain hp2 := (Except.ok.injEq _ _).mp hp
    subst hp2
    refine ⟨_, rfl, appendFeat (List.replicate K []) (featVals feat), ?_, ?_, ?_⟩
    · rw [hK]
      cases hL : cfg.hasLabels <;> simp [hL]
    · rw [appendFeat_length, List.length_replicate]
    · intro slot2 hmem
      have := appendFeat_full_lengths (List.replicate K []) (featVals feat) 0
        (by rw [hvals, List.length_replicate])
        (fun slot hsl => List.eq_of_mem_replicate hsl ▸ rfl) slot2 hmem
      simpa using this
  · have hlen2 : fillLen feat ≤ fs.length := by
      rw [hfs, hK]
      cases hL : cfg.hasLabels <;> simp [hL, hflen]
    have hnil2 : cfg.hasLabels = true → fs ≠ [] := by
      intro hL h2
      rw [h2] at hfs
      rw [hL] at hfs
      simp at hfs
    rw [processRow_next_success cfg st r std molTo feat fs hr hc hf hlen2 hnil2]
      at hp
    obtain hp2 := (Except.ok.injEq _ _).mp hp
    subst hp2
    have happ : appendFeat fs (featVals feat)
        = appendFeat front (featVals feat)
          ++ (if cfg.hasLabels then [s.map (labelEntry cfg)] else []) := by
      rw [hfs]
      exact appendFeat_append _ _ _ (by rw [hvals, hflen])
    have hfrontlen : (appendFeat front (featVals feat)).length = K := by
      rw [appendFeat_length, hflen]
    have hfrontslots : ∀ slot2 ∈ appendFeat front (featVals feat),
        slot2.length = (s ++ [r]).length := by
      intro slot2 hmem
      have := appendFeat_full_lengths front (featVals feat) s.length
        (by rw [hvals, hflen]) hslots slot2 hmem
      simpa using this
    cases hL : cfg.hasLabels with
    | false =>
      have happ2 : appendFeat fs (featVals feat)
          = appendFeat front (featVals feat) := by
        rw [hL] at happ
        simpa using happ
      refine ⟨_, rfl, appendFeat fs (featVals feat), ?_, ?_, ?_⟩
      · simp [hL]
      · rw [happ2, appendFeat_length, hflen]
      · intro slot2 hmem
        rw [happ2] at hmem
        exact hfrontslots slot2 hmem
    | true =>
      rw [hL] at happ
      simp only [if_true] at happ
      refine ⟨_, rfl, appendFeat front (featVals feat), ?_, hfrontlen,
        hfrontslots⟩
      simp only [hL, if_true]
      rw [happ, appendToLast_concat]
      simp

theorem parseLoop_slotInv (cfg : Config) (K : Nat) :
    ∀ (rows : List Row) (st st' : ParseState) (s : List Row),
    (∀ r ∈ rows, isSuccess cfg r = true → fillLen (featOf r) = K) →
    ((st.features = none ∧ s = []) ∨
      (∃ fs, st.features = some fs ∧ SlotInv cfg K s fs)) →
    parseLoop cfg st rows = .ok st' →
    ((st'.features = none ∧ s = [] ∧ successRecords cfg rows = []) ∨
      (∃ fs', st'.features = some fs' ∧
        SlotInv cfg K (s ++ successRecords cfg rows) fs')) := by
  intro rows
  induction rows with
  | nil =>
    intro st st' s hK hpre h
    obtain h2 := (Except.ok.injEq _ _).mp h
    subst h2
    rcases hpre with ⟨hf, hs0⟩ | ⟨fs, hf, hInv⟩
    · exact Or.inl ⟨hf, hs0, rfl⟩
    · refine Or.inr ⟨fs, hf, ?_⟩
      simpa [successRecords] using hInv
  | cons r rows ih =>
    intro st st' s hK hpre h
    simp only [parseLoop] at h
    cases hp : processRow cfg st r with
    | error e =>
      rw [hp] at h
      cases h
    | ok st1 =>
      rw [hp] at h
      by_cases hsr : isSuccess cfg r = true
      · obtain ⟨fs1, hf1, hInv1⟩ := processRow_slotInv cfg K s st r st1 hsr
          (hK r (by simp) hsr) hp hpre
        have hrec := ih st1 st' (s ++ [r])
          (fun r2 hm hs2 => hK r2 (by simp [hm]) hs2)
          (Or.inr ⟨fs1, hf1, hInv1⟩) h
        rcases hrec with ⟨_, habs, _⟩ | ⟨fs', hf', hInv'⟩
        · simp at habs
        · refine Or.inr ⟨fs', hf', ?_⟩
          rw [successRecords_cons]
          simpa [hsr] using hInv'
      · have hsr2 : isSuccess cfg r = false := by
          simpa using hsr
        rcases processRow_ok_spec cfg st r st1 hp with
          ⟨_, _, _, _, hfe⟩ | ⟨habs, _⟩
        · have hpre1 : (st1.features = none ∧ s = []) ∨
              (∃ fs, st1.features = some fs ∧ SlotInv cfg K s fs) := by
            rw [hfe]
            exact hpre
          have hrec := ih st1 st' s
            (fun r2 hm hs2 => hK r2 (by simp [hm]) hs2) hpre1 h
          rw [successRecords_cons]
          simpa [hsr2] using hrec
        · rw [habs] at hsr2
          cases hsr2

/-! Helper lemmas for the parser-object state across calls. -/

theorem parse_parser_smiles (cfg : Config) (p : Parser) (rows : List Row) :
    (parse cfg p rows).2.smiles
      = loopSmiles (parseLoop cfg (initState cfg p) rows) := by
  simp only [parse]
  split
  · simp_all [loopSmiles]
  · split <;> simp_all [loopSmiles]

theorem parse_smiles_none_iff (cfg : Config) (p : Parser) (rows : List Row) :
    (parse cfg p rows).2.smiles = none ↔
      (cfg.retain = false ∧ p.smiles = none) := by
  rw [parse_parser_smiles]
  obtain ⟨ids, hids⟩ := parseLoop_smiles_shape cfg rows (initState cfg p)
  rw [hids]
  cases hret : cfg.retain <;> simp [initState, hret]

theorem runCalls_smiles_none :
    ∀ (calls : List (Config × List Row)) (p : Parser),
    (runCalls p calls).smiles = none ↔
      (p.smiles = none ∧ ∀ c ∈ calls, c.1.retain = false) := by
  intro calls
  induction calls with
  | nil =>
    intro p
    simp [runCalls]
  | cons c rest ih =>
    intro p
    rcases c with ⟨cfg, rows⟩
    simp only [runCalls]
    rw [ih]
    rw [parse_smiles_none_iff cfg p rows]
    constructor
    · rintro ⟨⟨h5, h6⟩, h4⟩
      refine ⟨h6, ?_⟩
      intro c hc
      rcases List.mem_cons.mp hc with h7 | h7
      · subst h7
        exact h5
      · exact h4 c h7
    · rintro ⟨h5, h6⟩
      exact ⟨⟨h6 (cfg, rows) (by simp), h5⟩, fun c hc => h6 c (by simp [hc])⟩

theorem not_good_over (cfg : Config) (feat : FeatOut) (fs : List (List Val))
    (hgood : ¬(fillLen feat ≤ fs.length ∧ (cfg.hasLabels = true → fs ≠ []))) :
    fs.length < fillLen feat ∨ (cfg.hasLabels = true ∧ fs = []) := by
  by_cases h1 : fillLen feat ≤ fs.length
  · right
    rcases Classical.not_and_iff_or_not_not.mp hgood with h2 | h2
    · exact absurd h1 h2
    · rcases Classical.not_imp.mp h2 with ⟨h3, h4⟩
      exact ⟨h3, Classical.not_not.mp h4⟩
  · exact Or.inl (Nat.lt_of_not_le h1)

/-! The claims. -/

/-- C1: the claim says the parse call never fails because of per-row
errors, and that even 100 percent row failure yields an empty but valid
dataset.  The code contradicts this: when no row succeeds (and likewise on
an empty table), `features` is still None after the loop and the final
`for feature in features` raises a TypeError, so the parse call itself
fails.  This theorem evaluates the model at those failing inputs. -/
theorem parse_crashes_when_all_rows_fail :
    parse cfgPlain Parser.init [rowBad]
      = (.noneTypeError ⟨1, 0, none, none, 0⟩, ⟨none⟩) ∧
    parse cfgPlain Parser.init []
      = (.noneTypeError ⟨0, 0, none, none, 0⟩, ⟨none⟩) :=
  ⟨by decide, by decide⟩

/-- C2, counterexample: with `retain_smiles=True` and a row on which the
canonicalization consistency assert fails, the parse call does NOT halt:
the AssertionError is caught by the generic `except Exception` handler, the
row is counted as a failure (`fail_count = 1`), a warning is logged
(`warnings = 1`) and the following row is still processed
(`success_count = 1`), the call completing normally. -/
theorem assert_violation_not_halting_cex :
    parse cfgRetain Parser.init [rowAssertBad, rowGood]
      = (.ok [NDArr.dense [1] [.atom 7]]
          ⟨1, 1, some ["CCO"], some [[.atom 7]], 1⟩,
        ⟨some ["CCO"]⟩) := by decide

/-- C2, amended: an assertion failure of the consistency check
`standardized_smiles == Chem.MolToSmiles(mol)` is swallowed by the generic
per-row exception handling: the row is counted as a failure, a warning is
logged, nothing is appended to any accumulator, and processing continues
with the next row. -/
theorem assert_violation_swallowed (cfg : Config) (st : ParseState) (r : Row)
    (std molTo : String) (feat : FeatOut)
    (hr : r.step = .ok std molTo feat) (hret : cfg.retain = true)
    (hne : std ≠ molTo) :
    processRow cfg st r
      = .ok { st with fail_count := st.fail_count + 1,
                      warnings := st.warnings + 1 } := by
  have hc : (cfg.retain && (std != molTo)) = true := by simp [hret, hne]
  simp [processRow, hr, hc]

/-- C2, witness at the concrete violating row. -/
theorem assert_violation_swallowed_witness :
    processRow cfgRetain ⟨0, 0, some [], none, 0⟩ rowAssertBad
      = .ok ⟨1, 0, some [], none, 1⟩ :=
  assert_violation_swallowed cfgRetain ⟨0, 0, some [], none, 0⟩ rowAssertBad
    "CCO" "XCC" (.single (.atom 1)) rfl rfl (by decide)

/-- C3: after the row loop completes, `fail_count + success_count` equals
the number of rows; and at every intermediate point of the loop (after any
prefix of the rows), `fail_count + success_count` is at most the total. -/
theorem parse_counter_partition (cfg : Config) (p : Parser) (rows : List Row) :
    (∀ st2, parseLoop cfg (initState cfg p) rows = .ok st2 →
      st2.fail_count + st2.success_count = rows.length) ∧
    (∀ pre suf stMid, rows = pre ++ suf →
      parseLoop cfg (initState cfg p) pre = .ok stMid →
      stMid.fail_count + stMid.success_count ≤ rows.length) := by
  constructor
  · intro st2 h
    have h2 := (parseLoop_counts cfg rows _ st2 h).2
    simp [initState] at h2
    omega
  · intro pre suf stMid hsplit h
    have h2 := (parseLoop_counts cfg pre _ stMid h).2
    simp [initState] at h2
    subst hsplit
    rw [List.length_append]
    omega

/-- C4: with identifier retention requested, after a completing parse call
the retained list is exactly the canonical (re-derived) smiles strings of
the successful rows, in row order — not the original input strings — and
its length equals `success_count` (one append per success). -/
theorem retained_identifiers_spec (cfg : Config) (p : Parser) (rows : List Row)
    (arrays : List NDArr) (st : ParseState) (p2 : Parser)
    (hret : cfg.retain = true)
    (h : parse cfg p rows = (.ok arrays st, p2)) :
    st.smiles = some (canonicalIds cfg rows) ∧
    (canonicalIds cfg rows).length = st.success_count := by
  obtain ⟨hl, _⟩ := parse_ok_inv cfg p rows arrays st p2 h
  have hsm := parseLoop_canonicalIds cfg hret rows _ st hl
  have hcount := (parseLoop_counts cfg rows _ st hl).1
  constructor
  · rw [hsm]
    simp [initState, hret]
  · simp [initState] at hcount
    rw [hcount]
    simp [canonicalIds]

/-- C4, witness: one failing and one successful row with retention. -/
theorem retained_identifiers_witness :
    (⟨1, 1, some ["CCO"], some [[.atom 7]], 0⟩ : ParseState).smiles
      = some (canonicalIds cfgRetain [rowBad, rowGood]) ∧
    (canonicalIds cfgRetain [rowBad, rowGood]).length
      = (⟨1, 1, some ["CCO"], some [[.atom 7]], 0⟩ : ParseState).success_count :=
  retained_identifiers_spec cfgRetain Parser.init [rowBad, rowGood]
    [NDArr.dense [1] [.atom 7]] ⟨1, 1, some ["CCO"], some [[.atom 7]], 0⟩
    ⟨some ["CCO"]⟩ rfl (by decide)

/-- C5, counterexample: `retain_smiles` was NOT set on the most recent
parse call, yet `get_smiles` still returns the list retained by the
earlier call (and logs no warning), because `self.smiles` is never reset
by a non-retaining call. -/
theorem get_smiles_stale_cex :
    get_smiles (runCalls Parser.init
        [(cfgRetain, [rowGood]), (cfgPlain, [rowGood])])
      = (some ["CCO"], false) ∧ cfgPlain.retain = false :=
  ⟨by decide, rfl⟩

/-- C5, amended: `get_smiles` warns and returns nothing exactly when no
parse call since construction had `retain_smiles` set; a parse call
without retention leaves the previously retained list untouched, so the
list returned is the one of the most recent RETAINING call, not of the
most recent call. -/
theorem get_smiles_persistence :
    (∀ calls : List (Config × List Row),
      (get_smiles (runCalls Parser.init calls)).1 = none ↔
        ∀ c ∈ calls, c.1.retain = false) ∧
    (∀ (cfg : Config) (p : Parser) (rows : List Row), cfg.retain = false →
      (parse cfg p rows).2.smiles = p.smiles) := by
  constructor
  · intro calls
    have h1 := runCalls_smiles_none calls Parser.init
    have h2 : (get_smiles (runCalls Parser.init calls)).1 = none ↔
        (runCalls Parser.init calls).smiles = none := by
      cases h : (runCalls Parser.init calls).smiles <;> simp [get_smiles, h]
    rw [h2, h1]
    simp [Parser.init]
  · intro cfg p rows hret
    rw [parse_parser_smiles]
    obtain ⟨ids, hids⟩ := parseLoop_smiles_shape cfg rows (initState cfg p)
    rw [hids, hret]
    simp [initState, hret]

/-- C6: a row whose smiles does not parse, and a row raising the
recognized `MolFeatureExtractionError`, are skipped: the loop body returns
normally (no exception escapes the loop), `fail_count` is incremented, and
— since only the `fail_count` field changes — `success_count`, every
accumulator (`features`, `smiles`) and the warning count stay untouched:
these two expected cases log nothing. -/
theorem expected_failures_skip_silently (cfg : Config) (st : ParseState)
    (r : Row) (h : r.step = .molNone ∨ r.step = .featErr) :
    processRow cfg st r = .ok { st with fail_count := st.fail_count + 1 } := by
  rcases h with h | h <;> simp [processRow, h]

/-- C6, witness at a non-parsing row and a feature-error row. -/
theorem expected_failures_skip_silently_witness :
    processRow cfgPlain ⟨0, 0, none, none, 0⟩ rowBad
      = .ok ⟨1, 0, none, none, 0⟩ ∧
    processRow cfgPlain ⟨3, 2, none, none, 1⟩ rowFeatErr
      = .ok ⟨4, 2, none, none, 1⟩ :=
  ⟨expected_failures_skip_silently cfgPlain ⟨0, 0, none, none, 0⟩ rowBad
      (Or.inl rfl),
    expected_failures_skip_silently cfgPlain ⟨3, 2, none, none, 1⟩ rowFeatErr
      (Or.inr rfl)⟩

/-- C7: when the values collected for a feature slot have no common
rectangular shape (ragged data), the final conversion step falls back to
an object-typed array whose elements are the original heterogeneous
per-row objects and whose outer length is the number of collected values,
instead of failing. -/
theorem ragged_fallback_object_array (vs : List Val)
    (h : commonShape vs = none) :
    toFeatArray vs = NDArr.obj vs ∧ (toFeatArray vs).outerLen = vs.length := by
  constructor
  · simp [toFeatArray, h]
  · exact toFeatArray_outerLen vs

/-- C7, witness: two rows with feature vectors of different lengths. -/
theorem ragged_fallback_object_array_witness :
    toFeatArray [Val.arr [.atom 1, .atom 2], Val.arr [.atom 3]]
        = NDArr.obj [Val.arr [.atom 1, .atom 2], Val.arr [.atom 3]] ∧
    (toFeatArray [Val.arr [.atom 1, .atom 2], Val.arr [.atom 3]]).outerLen
        = [Val.arr [.atom 1, .atom 2], Val.arr [.atom 3]].length :=
  ragged_fallback_object_array [Val.arr [.atom 1, .atom 2], Val.arr [.atom 3]]
    (by decide)

/-- C8: the slot count is established lazily on the first successful
record — its feature output fills `fillLen` slots (tuple length, or 1) and
one extra trailing slot is allocated for labels when configured, the label
entry landing in that last slot — and every later loop iteration that
returns normally preserves the number of slots, so the label slot remains
the last one. -/
theorem slot_count_first_success :
    (∀ (cfg : Config) (st : ParseState) (r : Row) (st1 : ParseState),
      st.features = none → isSuccess cfg r = true →
      processRow cfg st r = .ok st1 →
      ∃ fs, st1.features = some fs ∧
        fs.length = fillLen (featOf r) + labelBonus cfg ∧
        (cfg.hasLabels = true → fs.getLast? = some [labelEntry cfg r])) ∧
    (∀ (cfg : Config) (st : ParseState) (r : Row) (st1 : ParseState)
        (fs : List (List Val)),
      st.features = some fs → processRow cfg st r = .ok st1 →
      ∃ fs1, st1.features = some fs1 ∧ fs1.length = fs.length) := by
  constructor
  · intro cfg st r st1 hf hs hp
    obtain ⟨std, molTo, feat, hr, hc⟩ := isSuccess_ok cfg r hs
    have hfeat : featOf r = feat := by simp [featOf, hr]
    rw [processRow_first_success cfg st r std molTo feat hr hc hf] at hp
    obtain hp2 := (Except.ok.injEq _ _).mp hp
    subst hp2
    refine ⟨_, rfl, ?_, ?_⟩
    · rw [hfeat]
      cases hL : cfg.hasLabels <;>
        simp [hL, labelBonus, appendFeat_length, featVals_length]
    · intro hL
      simp [hL, List.getLast?_concat]
  · intro cfg st r st1 fs hf hp
    by_cases hs : isSuccess cfg r = true
    · obtain ⟨std, molTo, feat, hr, hc⟩ := isSuccess_ok cfg r hs
      by_cases hgood : fillLen feat ≤ fs.length ∧
          (cfg.hasLabels = true → fs ≠ [])
      · rw [processRow_next_success cfg st r std molTo feat fs hr hc hf
          hgood.1 hgood.2] at hp
        obtain hp2 := (Except.ok.injEq _ _).mp hp
        subst hp2
        refine ⟨_, rfl, ?_⟩
        cases hL : cfg.hasLabels <;>
          simp [hL, appendToLast_length, appendFeat_length]
      · rw [processRow_overflow cfg st r std molTo feat fs hr hc hf
            (not_good_over cfg feat fs hgood)] at hp
        cases hp
    · obtain ⟨w, hw⟩ := processRow_fail_spec cfg st r (by simpa using hs)
      rw [hw] at hp
      obtain hp2 := (Except.ok.injEq _ _).mp hp
      subst hp2
      exact ⟨fs, hf, rfl⟩

/-- C9: assuming every successful record fills the same number of feature
slots as the first successful one and no result post-processing function
is configured, every array of a completing parse call has leading
dimension `success_count`, and with labels configured the label array —
built from the label lists of the successful rows — is the last element of
the result. -/
theorem result_arrays_aligned (cfg : Config) (p : Parser) (rows : List Row)
    (arrays : List NDArr) (st : ParseState) (p2 : Parser) (K : Nat)
    (hpp : cfg.postprocessFn = none)
    (hK : ∀ r ∈ rows, isSuccess cfg r = true → fillLen (featOf r) = K)
    (h : parse cfg p rows = (.ok arrays st, p2)) :
    (∀ a ∈ arrays, a.outerLen = st.success_count) ∧
    (cfg.hasLabels = true → arrays.getLast? =
      some (toFeatArray ((successRecords cfg rows).map (labelEntry cfg)))) := by
  obtain ⟨hl, fs, hf, ha, _⟩ := parse_ok_inv cfg p rows arrays st p2 h
  rw [hpp] at ha
  have hcount := (parseLoop_counts cfg rows _ st hl).1
  have hcount2 : st.success_count = (successRecords cfg rows).length := by
    simp [initState] at hcount
    exact hcount
  have hinv := parseLoop_slotInv cfg K rows (initState cfg p) st []
    hK (Or.inl ⟨by simp [initState], rfl⟩) hl
  rcases hinv with ⟨hnone, _, _⟩ | ⟨fs2, hf2, front, hfs, hflen, hslots⟩
  · rw [hf] at hnone
    cases hnone
  · rw [hf] at hf2
    obtain hfs2 := (Option.some.injEq _ _).mp hf2
    subst hfs2
    simp only [List.nil_append] at hfs hslots
    constructor
    · intro a hmem
      rw [ha] at hmem
      obtain ⟨slot, hslot, ha2⟩ := List.mem_map.mp hmem
      subst ha2
      rw [toFeatArray_outerLen]
      rw [hfs] at hslot
      rcases List.mem_append.mp hslot with h5 | h5
      · rw [hslots slot h5, hcount2]
      · cases hL : cfg.hasLabels with
        | false =>
          rw [hL] at h5
          simp at h5
        | true =>
          rw [hL] at h5
          simp at h5
          subst h5
          simp [hcount2]
    · intro hL
      rw [ha, hfs, hL]
      simp only [if_true, List.map_append]
      simp [List.getLast?_concat]

/-- C9, witness: one label column, two successful 2-tuple rows and one
failing row. -/
theorem result_arrays_aligned_witness :
    (∀ a ∈ ([NDArr.dense [2] [.atom 1, .atom 3],
        NDArr.dense [2] [.atom 2, .atom 4],
        NDArr.dense [2, 1] [.arr [.atom 1], .arr [.atom 0]]] : List NDArr),
      a.outerLen = (⟨1, 2, none, some [[Val.atom 1, Val.atom 3],
        [Val.atom 2, Val.atom 4],
        [Val.arr [Val.atom 1], Val.arr [Val.atom 0]]], 0⟩
          : ParseState).success_count) ∧
    (cfgLabels.hasLabels = true →
      ([NDArr.dense [2] [.atom 1, .atom 3],
        NDArr.dense [2] [.atom 2, .atom 4],
        NDArr.dense [2, 1] [.arr [.atom 1], .arr [.atom 0]]]
          : List NDArr).getLast? =
        some (toFeatArray
          ((successRecords cfgLabels [rowL1, rowBad, rowL2]).map
            (labelEntry cfgLabels)))) :=
  result_arrays_aligned cfgLabels Parser.init [rowL1, rowBad, rowL2]
    [NDArr.dense [2] [.atom 1, .atom 3],
      NDArr.dense [2] [.atom 2, .atom 4],
      NDArr.dense [2, 1] [.arr [.atom 1], .arr [.atom 0]]]
    ⟨1, 2, none, some [[Val.atom 1, Val.atom 3], [Val.atom 2, Val.atom 4],
      [Val.arr [Val.atom 1], Val.arr [Val.atom 0]]], 0⟩
    ⟨none⟩ 2 rfl (by decide) (by decide)

/-- C10: when the features list is already established and a later
successful record's tuple output has more elements than there are slots
(the slot count of C8: the feature slots of the first success plus the
trailing label slot when configured), the per-slot append raises an
IndexError outside the per-row `try`: the loop body yields an error whose
counters are unchanged — the row is NOT counted as a failure — and the
error propagates through the loop, aborting the whole parse call. -/
theorem arity_overflow_uncaught :
    (∀ (cfg : Config) (st : ParseState) (r : Row) (std molTo : String)
        (vs : List Val) (fs : List (List Val)),
      st.features = some fs → r.step = .ok std molTo (.tup vs) →
      isSuccess cfg r = true → fs.length < vs.length →
      ∃ e, processRow cfg st r = .error e ∧
        e.fail_count = st.fail_count ∧ e.success_count = st.success_count) ∧
    (∀ (cfg : Config) (p : Parser) (pre : List Row) (r : Row)
        (rest : List Row) (stMid e : ParseState),
      parseLoop cfg (initState cfg p) pre = .ok stMid →
      processRow cfg stMid r = .error e →
      parse cfg p (pre ++ r :: rest) = (.indexError e, ⟨e.smiles⟩)) := by
  constructor
  · intro cfg st r std molTo vs fs hf hr hs hlt
    have hc : (cfg.retain && (std != molTo)) = false := by
      simp only [isSuccess, hr, Bool.not_eq_true'] at hs
      exact hs
    refine ⟨_, processRow_overflow cfg st r std molTo (.tup vs) fs hr hc hf
      (Or.inl (by simpa [fillLen] using hlt)), rfl, rfl⟩
  · intro cfg p pre r rest stMid e hpre hperr
    apply parse_of_loop_error
    rw [parseLoop_append, hpre]
    simp [parseLoop, hperr]

end CSVParse
